import Mathlib

/-!
Shallow embedding of `regional_variants.py`: the identity resolver, the
id-reconciliation step, the variant classifier/aggregator (`fill`), the
persistent store, and the reporter (`fetch`), together with theorems about
them.

Python dictionaries are modelled as association lists with unique keys
(`dictGet?` / `dictSet`), fallible operations (KeyError / NameError /
IndexError) return `Except FillError`, and the SQLite `individual` and
`num_regions` tables are modelled as a list of rows and a record of four
counters.
-/

set_option maxHeartbeats 1000000

namespace RegionalVariants

/-- Equality of `Except` values is decidable when it is on both sides. -/
instance exceptDecEq {ε α : Type} [DecidableEq ε] [DecidableEq α] :
    DecidableEq (Except ε α) := fun a b =>
  match a, b with
  | Except.ok x, Except.ok y =>
    if h : x = y then Decidable.isTrue (by rw [h])
    else Decidable.isFalse (fun he => h (by injection he))
  | Except.ok _, Except.error _ => Decidable.isFalse (fun he => by injection he)
  | Except.error _, Except.ok _ => Decidable.isFalse (fun he => by injection he)
  | Except.error e, Except.error e' =>
    if h : e = e' then Decidable.isTrue (by rw [h])
    else Decidable.isFalse (fun he => h (by injection he))

/-- Python `d[k]` for a dict modelled as an association list: the first
binding of `k`, if any. -/
def dictGet? {α β : Type} [DecidableEq α] (l : List (α × β)) (k : α) : Option β :=
  (l.find? (fun p => p.1 = k)).map (fun p => p.2)

/-- Python `d[k] = v`: replace the binding of an existing key in place,
append a binding for a new key (preserving insertion order). -/
def dictSet {α β : Type} [DecidableEq α] (l : List (α × β)) (k : α) (v : β) : List (α × β) :=
  if l.any (fun p => p.1 = k) then l.map (fun p => if p.1 = k then (k, v) else p)
  else l ++ [(k, v)]

/-- The JSON metadata record of a tree-sequence individual, restricted to the
three source-specific name keys the program reads (`sgdp_id`, `sample`,
`individual_id`); `none` means the key is absent from the record. -/
structure IndividualMetadata where
  sgdp_id : Option String
  sample : Option String
  individual_id : Option String
deriving DecidableEq

/-- A tree-sequence individual: its metadata record and the ids of its
sample nodes (`individual.nodes`).  Its tskit id is its index in the
tree sequence's individual table. -/
structure TsIndividual where
  metadata : IndividualMetadata
  nodes : List Nat
deriving DecidableEq

/-- A tree-sequence node: the individual it belongs to and its population. -/
structure TsNode where
  individual : Nat
  population : Nat
deriving DecidableEq

/-- One variant site: a genotype call (an allele index) per sample node, and
the list of allele strings (index 0 is the ancestral state; the empty string
stands for a missing call). -/
structure Variant where
  genotypes : List Nat
  alleles : List String
deriving DecidableEq

/-- The loaded tree sequence: individual table, node table, the population
metadata names, and the variant iterator's contents. -/
structure TreeSeq where
  individuals : List TsIndividual
  nodes : List TsNode
  populationNames : List String
  variants : List Variant
deriving DecidableEq

/-- Modelled from the spec: the static mapping `populations.regions` from
(source, population-name) pairs to region strings lives in the `populations`
module, which is not part of the sources embedded here; the spec describes it
only as "a fixed lookup table keyed by (source, population-name)", so it is
kept as an explicit parameter of the functions that consult it. -/
abbrev RegionMap := List ((String × String) × String)

/-- `num_regions = len(set(populations.regions.values()))` (line 96): the
number of distinct region strings among the values of the static mapping. -/
def numRegions (regions : RegionMap) : Nat :=
  ((regions.map (fun p => p.2)).dedup).length

/-- The four breadth categories (the four counter columns). -/
inductive Category where
  | all_regions
  | some_regions
  | one_region
  | one_person
deriving DecidableEq

/-- The errors a run of `fill` can raise: the unbound-variable `NameError`
when the very first individual has none of the three name keys, a missing or
out-of-range node, a missing population record, the `KeyError` from
`populations.regions`, the `KeyError` from `individual_regions`, the
`KeyError` from `individuals[row.name]` during reconciliation, and the
`KeyError` from `sql_ids[id]` during counter updates. -/
inductive FillError where
  | nameErrorAt (tsId : Nat)
  | missingNode (tsId : Nat)
  | missingPopulation (tsId : Nat)
  | missingRegionFor (tsId : Nat) (source popName : String)
  | missingIndividualRegion (tsId : Nat)
  | missingName (nm : String)
  | missingSqlId (tsId : Nat)
deriving DecidableEq

/-- Lines 121-129: the three-way metadata dispatch.  There is no `else`
branch, so when none of the three keys is present the Python variables
`source` and `individual_name` keep the values bound on the previous
iteration (`prev`); on the first iteration they are unbound. -/
def resolveSourceName (m : IndividualMetadata) (prev : Option (String × String)) :
    Option (String × String) :=
  match m.sgdp_id with
  | some n => some ("SGDP", n)
  | none =>
    match m.sample with
    | some n => some ("HGDP", n)
    | none =>
      match m.individual_id with
      | some n => some ("TGP", n)
      | none => prev

/-- The state threaded through the loop over `ts.individuals()`
(lines 119-138): the last bound `(source, individual_name)` pair, the
`individual_regions` dict (ts individual id to region), and the
`individuals` dict (name to (ts individual id, region)). -/
structure ResolveState where
  prev : Option (String × String)
  individual_regions : List (Nat × String)
  individuals : List (String × Nat × String)
deriving DecidableEq

/-- One iteration of the loop over `ts.individuals()` (lines 119-138) for the
individual with tskit id `p.1` and record `p.2`. -/
def processIndividual (regions : RegionMap) (ts : TreeSeq) (st : ResolveState)
    (p : Nat × TsIndividual) : Except FillError ResolveState :=
  match resolveSourceName p.2.metadata st.prev with
  | none => .error (.nameErrorAt p.1)
  | some (source, nm) =>
    match p.2.nodes.head? with
    | none => .error (.missingNode p.1)
    | some n0 =>
      match ts.nodes.get? n0 with
      | none => .error (.missingNode p.1)
      | some nd =>
        match ts.populationNames.get? nd.population with
        | none => .error (.missingPopulation p.1)
        | some popName =>
          match dictGet? regions (source, popName) with
          | none => .error (.missingRegionFor p.1 source popName)
          | some region =>
            .ok { prev := some (source, nm),
                  individual_regions := dictSet st.individual_regions p.1 region,
                  individuals := dictSet st.individuals nm (p.1, region) }

/-- The whole loop over `ts.individuals()` (lines 119-138). -/
def resolveAll (regions : RegionMap) (ts : TreeSeq) : Except FillError ResolveState :=
  ts.individuals.enum.foldlM (processIndividual regions ts) ⟨none, [], []⟩

/-- One row of the SQLite `individual` table (lines 62-72). -/
structure IndividualRow where
  id : Nat
  name : String
  region : String
  all_regions : Nat
  some_regions : Nat
  one_region : Nat
  one_person : Nat
deriving DecidableEq

/-- The `num_regions` totals table (lines 74-82): one counter per category. -/
structure Totals where
  all_regions : Nat
  some_regions : Nat
  one_region : Nat
  one_person : Nat
deriving DecidableEq

/-- The persistent store: the `individual` table and the totals table. -/
structure Store where
  individual : List IndividualRow
  totals : Totals
deriving DecidableEq

/-- `init` (lines 53-85): an empty individual table and all-zero totals. -/
def initStore : Store := ⟨[], ⟨0, 0, 0, 0⟩⟩

/-- Projection of a row's counter for a category. -/
def counter (c : Category) (r : IndividualRow) : Nat :=
  match c with
  | .all_regions => r.all_regions
  | .some_regions => r.some_regions
  | .one_region => r.one_region
  | .one_person => r.one_person

/-- Projection of the totals table's counter for a category. -/
def counterT (c : Category) (t : Totals) : Nat :=
  match c with
  | .all_regions => t.all_regions
  | .some_regions => t.some_regions
  | .one_region => t.one_region
  | .one_person => t.one_person

/-- `UPDATE individual SET c=c+1` applied to one row. -/
def bump (c : Category) (r : IndividualRow) : IndividualRow :=
  match c with
  | .all_regions => { r with all_regions := r.all_regions + 1 }
  | .some_regions => { r with some_regions := r.some_regions + 1 }
  | .one_region => { r with one_region := r.one_region + 1 }
  | .one_person => { r with one_person := r.one_person + 1 }

/-- `UPDATE num_regions SET number=number+1 WHERE name=?` (line 180). -/
def bumpTotals (c : Category) (t : Totals) : Totals :=
  match c with
  | .all_regions => { t with all_regions := t.all_regions + 1 }
  | .some_regions => { t with some_regions := t.some_regions + 1 }
  | .one_region => { t with one_region := t.one_region + 1 }
  | .one_person => { t with one_person := t.one_person + 1 }

/-- `UPDATE individual SET c=c+1 WHERE id=?` (line 178): every row whose
primary key matches is bumped. -/
def updateRow (rows : List IndividualRow) (sqlId : Nat) (c : Category) :
    List IndividualRow :=
  rows.map (fun r => if r.id = sqlId then bump c r else r)

/-- `numpy.where(variant.genotypes == allele_index)[0]` (line 163): the node
ids whose genotype call equals the allele index. -/
def carrierNodes (v : Variant) (k : Nat) : List Nat :=
  (List.range v.genotypes.length).filter (fun n => v.genotypes.get? n = some k)

/-- Lines 163-165: collect the carrier nodes, look each up in the node table,
and deduplicate their owning individuals into a set (modelled as a
duplicate-free list). -/
def carrierIndividuals (ts : TreeSeq) (v : Variant) (k : Nat) :
    Except FillError (List Nat) := do
  let fullNodes ← (carrierNodes v k).mapM (fun n =>
    match ts.nodes.get? n with
    | none => Except.error (FillError.missingNode n)
    | some nd => Except.ok nd)
  Except.ok (fullNodes.map (fun nd => nd.individual)).dedup

/-- Lines 167-176: classify a deduplicated carrier set.  A single carrier is
`one_person`; otherwise the carriers' regions are collected from
`individual_regions` and their deduplicated count is compared against
`num_regions`. -/
def classify (ir : List (Nat × String)) (numR : Nat) (ids : List Nat) :
    Except FillError Category :=
  if ids.length = 1 then Except.ok Category.one_person
  else do
    let regs ← ids.mapM (fun i =>
      match dictGet? ir i with
      | none => Except.error (FillError.missingIndividualRegion i)
      | some r => Except.ok r)
    let region_count := regs.dedup.length
    if region_count = 1 then Except.ok Category.one_region
    else if region_count < numR then Except.ok Category.some_regions
    else Except.ok Category.all_regions

/-- Lines 167-181 for one allele event with carrier set `ids`: classify, bump
the matching row of every distinct carrier (lines 178-179), and bump the
event's global total once (lines 180-181). -/
def applyAllele (ir : List (Nat × String)) (numR : Nat) (sql : List (Nat × Nat))
    (s : Store) (ids : List Nat) : Except FillError Store := do
  let c ← classify ir numR ids
  let sqlList ← ids.mapM (fun i =>
    match dictGet? sql i with
    | none => Except.error (FillError.missingSqlId i)
    | some si => Except.ok si)
  Except.ok ⟨sqlList.foldl (fun rows si => updateRow rows si c) s.individual,
             bumpTotals c s.totals⟩

/-- The body of the loop over `enumerate(variant.alleles)` (lines 157-181):
skip the ancestral allele (index 0) and empty alleles, otherwise process the
allele event. -/
def alleleStep (ts : TreeSeq) (ir : List (Nat × String)) (numR : Nat)
    (sql : List (Nat × Nat)) (v : Variant) (s : Store) (ka : Nat × String) :
    Except FillError Store :=
  if ka.1 = 0 ∨ ka.2 = "" then Except.ok s
  else do
    let ids ← carrierIndividuals ts v ka.1
    applyAllele ir numR sql s ids

/-- The loop over `enumerate(variant.alleles)` for one variant. -/
def processVariant (ts : TreeSeq) (ir : List (Nat × String)) (numR : Nat)
    (sql : List (Nat × Nat)) (s : Store) (v : Variant) : Except FillError Store :=
  v.alleles.enum.foldlM (alleleStep ts ir numR sql v) s

/-- The loop over `ts.variants()` (lines 152-181). -/
def runVariants (ts : TreeSeq) (ir : List (Nat × String)) (numR : Nat)
    (sql : List (Nat × Nat)) (s : Store) : Except FillError Store :=
  ts.variants.foldlM (processVariant ts ir numR sql) s

/-- The row inserted for a new individual (line 149): its ts id, name and
region, and four zero counters. -/
def initialRow (p : String × Nat × String) : IndividualRow :=
  ⟨p.2.1, p.1, p.2.2, 0, 0, 0, 0⟩

/-- Lines 142-149: read the `individual` table; if it is non-empty, build
`sql_ids = {individuals[row.name].id : row.id}` (a `KeyError` when a stored
name is absent from the dataset); otherwise use the identity mapping on the
dataset's ids and insert one all-zero row per entry of `individuals`. -/
def reconcile (individuals : List (String × Nat × String))
    (rows : List IndividualRow) :
    Except FillError (List (Nat × Nat) × List IndividualRow) :=
  if rows.isEmpty then
    Except.ok (individuals.map (fun p => (p.2.1, p.2.1)),
               rows ++ individuals.map initialRow)
  else do
    let sql ← rows.foldlM (fun acc r =>
      match dictGet? individuals r.name with
      | none => Except.error (FillError.missingName r.name)
      | some q => Except.ok (dictSet acc q.1 r.id)) []
    Except.ok (sql, rows)

/-- `fill` (lines 88-188): resolve every individual, reconcile ids against
the store, then process every variant's allele events. -/
def fill (regions : RegionMap) (store : Store) (ts : TreeSeq) :
    Except FillError Store := do
  let st ← resolveAll regions ts
  let (sql, rows) ← reconcile st.individuals store.individual
  runVariants ts st.individual_regions (numRegions regions) sql
    { store with individual := rows }

/-- `AVG(f)` over a group of rows, as an exact rational. -/
def avgQ (g : List IndividualRow) (f : IndividualRow → Nat) : ℚ :=
  ((g.map f).sum : ℚ) / (g.length : ℚ)

/-- `fetch` (lines 193-221): group the individual table by region and return
each region's four counter averages. -/
def fetch (rows : List IndividualRow) : List (String × ℚ × ℚ × ℚ × ℚ) :=
  ((rows.map (fun r => r.region)).dedup).map (fun reg =>
    let g := rows.filter (fun r => r.region = reg)
    (reg,
     avgQ g (fun r => r.all_regions),
     avgQ g (fun r => r.some_regions),
     avgQ g (fun r => r.one_region),
     avgQ g (fun r => r.one_person)))

/-! ### Auxiliary notions used to state and prove properties of the model -/

/-- `n` iterated applications of `bump c`. -/
def bumpN (c : Category) : Nat → IndividualRow → IndividualRow
  | 0, r => r
  | n + 1, r => bumpN c n (bump c r)

/-- Add a per-category amount to a row's four counters, leaving id, name and
region unchanged. -/
def addC (g : Category → Nat) (r : IndividualRow) : IndividualRow :=
  ⟨r.id, r.name, r.region,
   r.all_regions + g Category.all_regions,
   r.some_regions + g Category.some_regions,
   r.one_region + g Category.one_region,
   r.one_person + g Category.one_person⟩

/-- Add a per-category amount to the totals table. -/
def addT (g : Category → Nat) (t : Totals) : Totals :=
  ⟨t.all_regions + g Category.all_regions,
   t.some_regions + g Category.some_regions,
   t.one_region + g Category.one_region,
   t.one_person + g Category.one_person⟩

/-- Add, to each row, a per-category amount determined by the row's id. -/
def addRows (d : Nat → Category → Nat) (rows : List IndividualRow) :
    List IndividualRow :=
  rows.map (fun r => addC (d r.id) r)

/-- A store transformer is a shift: whenever it succeeds it adds a fixed
per-id, per-category amount to the rows' counters and a fixed per-category
amount to the totals, and does the same on any store whose rows carry the
same ids in the same order. -/
def ShiftRun (F : Store → Except FillError Store) : Prop :=
  ∀ sA sA', F sA = Except.ok sA' → ∃ d dT,
    sA'.individual = addRows d sA.individual ∧ sA'.totals = addT dT sA.totals ∧
    ∀ sB : Store, sB.individual.map (fun r => r.id) = sA.individual.map (fun r => r.id) →
      F sB = Except.ok ⟨addRows d sB.individual, addT dT sB.totals⟩

/-! ### Concrete data used by the concrete theorems -/

/-- A one-population region mapping. -/
def regionsOne : RegionMap := [(("SGDP", "p1"), "A")]

/-- A dataset with one individual carrying one derived allele. -/
def tsOne : TreeSeq :=
  { individuals := [⟨⟨some "I1", none, none⟩, [0]⟩],
    nodes := [⟨0, 0⟩],
    populationNames := ["p1"],
    variants := [⟨[1], ["R", "T"]⟩] }

/-- The store produced by one run of `fill regionsOne initStore tsOne`. -/
def storeOne1 : Store := ⟨[⟨0, "I1", "A", 0, 0, 0, 1⟩], ⟨0, 0, 0, 1⟩⟩

/-- The store produced by a second run of `fill` over the same dataset. -/
def storeOne2 : Store := ⟨[⟨0, "I1", "A", 0, 0, 0, 2⟩], ⟨0, 0, 0, 2⟩⟩

/-- A region mapping whose values span three distinct regions. -/
def regions3 : RegionMap :=
  [(("SGDP", "p1"), "A"), (("SGDP", "p2"), "B"), (("SGDP", "p3"), "C")]

/-- A dataset whose two individuals cover only two of `regions3`'s three
regions, with one variant whose derived allele is carried by both. -/
def tsAB : TreeSeq :=
  { individuals := [⟨⟨some "I1", none, none⟩, [0]⟩, ⟨⟨some "I2", none, none⟩, [1]⟩],
    nodes := [⟨0, 0⟩, ⟨1, 1⟩],
    populationNames := ["p1", "p2"],
    variants := [⟨[1, 1], ["R", "T"]⟩] }

/-- The variant of `tsAB`. -/
def variantAB : Variant := ⟨[1, 1], ["R", "T"]⟩

/-- The resolver state produced for `tsAB` under `regions3`. -/
def stAB : ResolveState :=
  ⟨some ("SGDP", "I2"), [(0, "A"), (1, "B")], [("I1", 0, "A"), ("I2", 1, "B")]⟩

/-- A two-population region mapping. -/
def regionsC8 : RegionMap := [(("SGDP", "p1"), "A"), (("SGDP", "p2"), "B")]

/-- A dataset whose second individual's metadata has none of the three name
keys. -/
def tsC8 : TreeSeq :=
  { individuals := [⟨⟨some "I1", none, none⟩, [0]⟩, ⟨⟨none, none, none⟩, [1]⟩],
    nodes := [⟨0, 0⟩, ⟨1, 1⟩],
    populationNames := ["p1", "p2"],
    variants := [] }

/-- A dataset whose only (hence first) individual's metadata has none of the
three name keys. -/
def tsC8first : TreeSeq :=
  { individuals := [⟨⟨none, none, none⟩, [0]⟩],
    nodes := [⟨0, 0⟩],
    populationNames := ["p1"],
    variants := [] }

/-- A dataset whose only individual's population name is absent from
`regionsOne`. -/
def tsC7 : TreeSeq :=
  { individuals := [⟨⟨some "I1", none, none⟩, [0]⟩],
    nodes := [⟨0, 0⟩],
    populationNames := ["p2"],
    variants := [] }

/-- A pre-existing store for `tsOne` whose stored stable id (5) differs from
the dataset-internal id (0). -/
def storeC6pre : Store := ⟨[⟨5, "I1", "A", 3, 0, 0, 1⟩], ⟨0, 0, 0, 0⟩⟩

/-- The store after running `fill` for `tsOne` against `storeC6pre`. -/
def storeC6post : Store := ⟨[⟨5, "I1", "A", 3, 0, 0, 2⟩], ⟨0, 0, 0, 1⟩⟩

/-- The spec's reporting example: two individuals of region East with
counters (2,1,0,0) and (0,1,2,0). -/
def eastRows : List IndividualRow :=
  [⟨1, "a", "East", 2, 1, 0, 0⟩, ⟨2, "b", "East", 0, 1, 2, 0⟩]

/-- An `individual_regions` dict for two individuals in regions A and B. -/
def irPair : List (Nat × String) := [(0, "A"), (1, "B")]

/-- An identity `sql_ids` dict for individuals 0 and 1. -/
def sqlPair : List (Nat × Nat) := [(0, 0), (1, 1)]

/-- A store with one all-zero row per individual 0 and 1. -/
def storePair : Store :=
  ⟨[⟨0, "x", "A", 0, 0, 0, 0⟩, ⟨1, "y", "B", 0, 0, 0, 0⟩], ⟨0, 0, 0, 0⟩⟩

/-- `storePair` after an `all_regions` event carried by both individuals. -/
def storePairAfterAll : Store :=
  ⟨[⟨0, "x", "A", 1, 0, 0, 0⟩, ⟨1, "y", "B", 1, 0, 0, 0⟩], ⟨1, 0, 0, 0⟩⟩

/-- `storePair` after a `some_regions` event carried by both individuals. -/
def storePairAfterSome : Store :=
  ⟨[⟨0, "x", "A", 0, 1, 0, 0⟩, ⟨1, "y", "B", 0, 1, 0, 0⟩], ⟨0, 1, 0, 0⟩⟩

/-! ### Basic lemmas: `Except`, dictionaries, rows and counters -/

theorem exceptBind_ok {ε α β : Type} (a : α) (f : α → Except ε β) :
    (Except.ok a >>= f) = f a := rfl

theorem exceptBind_error {ε α β : Type} (e : ε) (f : α → Except ε β) :
    ((Except.error e : Except ε α) >>= f) = Except.error e := rfl

theorem dictGet?_of_mem_of_nodup {α β : Type} [DecidableEq α] {l : List (α × β)} {k : α}
    {v : β} (hn : (l.map Prod.fst).Nodup) (hm : (k, v) ∈ l) : dictGet? l k = some v := by
  induction l with
  | nil => cases hm
  | cons p t ih =>
    simp only [List.map_cons, List.nodup_cons] at hn
    rcases List.mem_cons.mp hm with h | h
    · subst h
      simp [dictGet?]
    · have hne : ¬ p.1 = k := by
        intro he
        exact hn.1 (he ▸ List.mem_map.mpr ⟨(k, v), h, rfl⟩)
    -- the head is skipped and the tail lookup succeeds
      simp only [dictGet?] at ih ⊢
      rw [List.find?_cons_of_neg _ (by simpa using hne)]
      exact ih hn.2 h

theorem dictSet_of_not_mem {α β : Type} [DecidableEq α] {l : List (α × β)} {k : α} (v : β)
    (h : k ∉ l.map Prod.fst) : dictSet l k v = l ++ [(k, v)] := by
  have : l.any (fun p => p.1 = k) = false := by
    simp only [List.any_eq_false, decide_eq_true_eq]
    intro p hp he
    exact h (List.mem_map.mpr ⟨p, hp, he⟩)
  simp [dictSet, this]

theorem mem_dictSet {α β : Type} [DecidableEq α] {l : List (α × β)} {k : α} {v : β}
    {q : α × β} (h : q ∈ dictSet l k v) : q = (k, v) ∨ q ∈ l := by
  unfold dictSet at h
  split at h
  · rcases List.mem_map.mp h with ⟨p, hp, he⟩
    by_cases hc : p.1 = k
    · left; rw [← he]; simp [hc]
    · right; rw [← he]; simpa [hc] using hp
  · rcases List.mem_append.mp h with h | h
    · right; exact h
    · left; simpa using h

theorem dictSet_map_fst_of_mem {α β : Type} [DecidableEq α] {l : List (α × β)} {k : α}
    (v : β) (h : k ∈ l.map Prod.fst) :
    (dictSet l k v).map Prod.fst = l.map Prod.fst := by
  have ha : l.any (fun p => p.1 = k) = true := by
    rcases List.mem_map.mp h with ⟨p, hp, he⟩
    exact List.any_eq_true.mpr ⟨p, hp, by simp [he]⟩
  unfold dictSet
  rw [if_pos ha, List.map_map]
  refine List.map_congr_left (fun p _ => ?_)
  by_cases hc : p.1 = k <;> simp [hc]

theorem counter_bump (c c' : Category) (r : IndividualRow) :
    counter c' (bump c r) = counter c' r + if c' = c then 1 else 0 := by
  cases c <;> cases c' <;> simp [counter, bump]

theorem bump_id (c : Category) (r : IndividualRow) : (bump c r).id = r.id := by
  cases c <;> rfl

theorem bump_name (c : Category) (r : IndividualRow) : (bump c r).name = r.name := by
  cases c <;> rfl

theorem bump_region (c : Category) (r : IndividualRow) : (bump c r).region = r.region := by
  cases c <;> rfl

theorem bumpN_id (c : Category) : ∀ (n : Nat) (r : IndividualRow), (bumpN c n r).id = r.id
  | 0, _ => rfl
  | n + 1, r => by rw [bumpN, bumpN_id c n, bump_id]

theorem counter_bumpN (c c' : Category) :
    ∀ (n : Nat) (r : IndividualRow),
      counter c' (bumpN c n r) = counter c' r + if c' = c then n else 0
  | 0, r => by simp [bumpN]
  | n + 1, r => by
    rw [bumpN, counter_bumpN c c' n, counter_bump]
    by_cases h : c' = c <;> simp [h] <;> omega

theorem counter_addC (g : Category → Nat) (c : Category) (r : IndividualRow) :
    counter c (addC g r) = counter c r + g c := by
  cases c <;> rfl

theorem counterT_addT (g : Category → Nat) (c : Category) (t : Totals) :
    counterT c (addT g t) = counterT c t + g c := by
  cases c <;> rfl

theorem counterT_bumpTotals (c c' : Category) (t : Totals) :
    counterT c' (bumpTotals c t) = counterT c' t + if c' = c then 1 else 0 := by
  cases c <;> cases c' <;> simp [counterT, bumpTotals]

theorem IndividualRow.ext_counters {r1 r2 : IndividualRow}
    (hid : r1.id = r2.id) (hnm : r1.name = r2.name) (hrg : r1.region = r2.region)
    (hc : ∀ c, counter c r1 = counter c r2) : r1 = r2 := by
  cases r1; cases r2
  have h1 := hc Category.all_regions
  have h2 := hc Category.some_regions
  have h3 := hc Category.one_region
  have h4 := hc Category.one_person
  simp_all [counter]

theorem bumpN_eq_addC (c : Category) (n : Nat) (r : IndividualRow) :
    bumpN c n r = addC (fun c' => if c' = c then n else 0) r := by
  refine IndividualRow.ext_counters (by rw [bumpN_id]; rfl) ?_ ?_ ?_
  · induction n generalizing r with
    | zero => rfl
    | succ n ih => rw [bumpN, ih]; exact bump_name c r
  · induction n generalizing r with
    | zero => rfl
    | succ n ih => rw [bumpN, ih]; exact bump_region c r
  · intro c'
    rw [counter_bumpN, counter_addC]

theorem addC_zero (r : IndividualRow) : addC (fun _ => 0) r = r := by
  cases r; simp [addC]

theorem addC_addC (g1 g2 : Category → Nat) (r : IndividualRow) :
    addC g2 (addC g1 r) = addC (fun c => g1 c + g2 c) r := by
  cases r; simp [addC]; omega

theorem addT_zero (t : Totals) : addT (fun _ => 0) t = t := by
  cases t; simp [addT]

theorem addT_addT (g1 g2 : Category → Nat) (t : Totals) :
    addT g2 (addT g1 t) = addT (fun c => g1 c + g2 c) t := by
  cases t; simp [addT]; omega

theorem bumpTotals_eq_addT (c : Category) (t : Totals) :
    bumpTotals c t = addT (fun c' => if c' = c then 1 else 0) t := by
  cases c <;> (cases t; simp [bumpTotals, addT])

theorem addRows_zero (rows : List IndividualRow) : addRows (fun _ _ => 0) rows = rows := by
  unfold addRows
  rw [List.map_congr_left (fun r _ => addC_zero r)]
  exact List.map_id _

theorem addRows_addRows (d1 d2 : Nat → Category → Nat) (rows : List IndividualRow) :
    addRows d2 (addRows d1 rows) = addRows (fun i c => d1 i c + d2 i c) rows := by
  unfold addRows
  rw [List.map_map]
  refine List.map_congr_left (fun r _ => ?_)
  show addC (d2 (addC (d1 r.id) r).id) (addC (d1 r.id) r) = _
  have : (addC (d1 r.id) r).id = r.id := rfl
  rw [this, addC_addC]

theorem addRows_map_id (d : Nat → Category → Nat) (rows : List IndividualRow) :
    (addRows d rows).map (fun r => r.id) = rows.map (fun r => r.id) := by
  unfold addRows
  rw [List.map_map]
  rfl

theorem addRows_map_shape (d : Nat → Category → Nat) (rows : List IndividualRow) :
    (addRows d rows).map (fun r => (r.id, r.name, r.region))
      = rows.map (fun r => (r.id, r.name, r.region)) := by
  unfold addRows
  rw [List.map_map]
  rfl

/-! ### `mapM`, `foldlM` and counting lemmas -/

theorem mapM_ok_of_forall {α β : Type} (f : α → Except FillError β) (g : α → β) :
    ∀ l : List α, (∀ a ∈ l, f a = Except.ok (g a)) → l.mapM f = Except.ok (l.map g) := by
  intro l
  induction l with
  | nil => intro _; rfl
  | cons a t ih =>
    intro h
    rw [List.mapM_cons, h a (List.mem_cons_self a t),
        ih (fun x hx => h x (List.mem_cons_of_mem a hx))]
    rfl

theorem mapM_ok_inversion {α β : Type} (f : α → Except FillError β) :
    ∀ (l : List α) (out : List β), l.mapM f = Except.ok out →
      out.length = l.length ∧
      ∀ j a b, l.get? j = some a → out.get? j = some b → f a = Except.ok b := by
  intro l
  induction l with
  | nil =>
    intro out h
    rw [List.mapM_nil] at h
    cases h
    exact ⟨rfl, by intro j a b ha; cases ha⟩
  | cons x t ih =>
    intro out h
    rw [List.mapM_cons] at h
    cases hx : f x with
    | error e => rw [hx] at h; cases h
    | ok b0 =>
      rw [hx] at h
      cases ht : t.mapM f with
      | error e => rw [ht, exceptBind_ok] at h; cases h
      | ok bs =>
        rw [ht] at h
        have : out = b0 :: bs := by
          have := h
          simp only [exceptBind_ok] at this
          cases this; rfl
        subst this
        obtain ⟨hlen, hall⟩ := ih bs ht
        refine ⟨by simp [hlen], ?_⟩
        intro j a b
        cases j with
        | zero =>
          intro ha hb
          cases ha; cases hb; exact hx
        | succ j =>
          exact hall j a b

theorem foldl_updateRow_eq (c : Category) :
    ∀ (L : List Nat) (rows : List IndividualRow),
      L.foldl (fun rows si => updateRow rows si c) rows
        = rows.map (fun r => bumpN c (L.count r.id) r) := by
  intro L
  induction L with
  | nil =>
    intro rows
    simp [bumpN]
  | cons s L ih =>
    intro rows
    rw [List.foldl_cons, ih, updateRow, List.map_map]
    refine List.map_congr_left (fun r _ => ?_)
    show bumpN c (L.count (if r.id = s then bump c r else r).id) (if r.id = s then bump c r else r)
      = bumpN c ((s :: L).count r.id) r
    by_cases h : r.id = s
    · subst h
      rw [if_pos rfl, bump_id, List.count_cons, if_pos (by simp)]
      rfl
    · rw [if_neg h, List.count_cons,
          if_neg (by simp only [beq_iff_eq]; exact fun he => h he.symm)]
      simp

theorem count_map_one_of_inj_on {f : Nat → Nat} {L : List Nat} (hnd : L.Nodup)
    (hinj : ∀ i ∈ L, ∀ j ∈ L, f i = f j → i = j) {i : Nat} (hi : i ∈ L) :
    (L.map f).count (f i) = 1 := by
  rw [List.count_eq_countP, List.countP_map]
  have : List.countP (fun x => f x == f i) L = List.countP (fun x => x == i) L := by
    refine List.countP_congr (fun x hx => ?_)
    by_cases h : x = i
    · simp [h]
    · have : ¬ f x = f i := fun he => h (hinj x hx i hi he)
      simp [h, this]
  rw [show ((fun b => b == f i) ∘ f) = (fun x => f x == f i) from rfl, this,
      ← List.count_eq_countP]
  exact List.count_eq_one_of_mem hnd hi

theorem count_map_zero_of_forall_ne {f : Nat → Nat} {L : List Nat} {x : Nat}
    (h : ∀ i ∈ L, ¬ f i = x) : (L.map f).count x = 0 := by
  rw [List.count_eq_zero]
  intro hx
  rcases List.mem_map.mp hx with ⟨i, hi, he⟩
  exact h i hi he

theorem foldlM_filter_pure {α σ : Type} (g : σ → α → Except FillError σ) (p : α → Bool)
    (hg : ∀ s a, p a = false → g s a = Except.ok s) :
    ∀ (l : List α) (s : σ), l.foldlM g s = (l.filter p).foldlM g s := by
  intro l
  induction l with
  | nil => intro s; rfl
  | cons a t ih =>
    intro s
    cases hp : p a with
    | true =>
      rw [List.filter_cons_of_pos hp, List.foldlM_cons, List.foldlM_cons]
      cases g s a with
      | error e => rw [exceptBind_error, exceptBind_error]
      | ok s1 => rw [exceptBind_ok, exceptBind_ok, ih]
    | false =>
      rw [List.filter_cons_of_neg (by simp [hp]), List.foldlM_cons, hg s a hp,
          exceptBind_ok, ih]

/-! ### The allele event: inversion lemmas -/

theorem applyAllele_ok_inversion (ir : List (Nat × String)) (numR : Nat)
    (sql : List (Nat × Nat)) (s : Store) (ids : List Nat) (s' : Store)
    (h : applyAllele ir numR sql s ids = Except.ok s') :
    ∃ c sqlList, classify ir numR ids = Except.ok c ∧
      ids.mapM (fun i => match dictGet? sql i with
        | none => Except.error (FillError.missingSqlId i)
        | some si => Except.ok si) = Except.ok sqlList ∧
      s' = ⟨sqlList.foldl (fun rows si => updateRow rows si c) s.individual,
            bumpTotals c s.totals⟩ := by
  unfold applyAllele at h
  cases hc : classify ir numR ids with
  | error e => rw [hc, exceptBind_error] at h; cases h
  | ok c =>
    rw [hc, exceptBind_ok] at h
    cases hm : ids.mapM (fun i => match dictGet? sql i with
      | none => Except.error (FillError.missingSqlId i)
      | some si => Except.ok si) with
    | error e => rw [hm, exceptBind_error] at h; cases h
    | ok sqlList =>
      rw [hm, exceptBind_ok] at h
      injection h with h
      exact ⟨c, sqlList, rfl, rfl, h.symm⟩

theorem applyAllele_spec (ir : List (Nat × String)) (numR : Nat) (sql : List (Nat × Nat))
    (s s' : Store) (ids : List Nat) (f : Nat → Nat)
    (hsql : ∀ i ∈ ids, dictGet? sql i = some (f i))
    (h : applyAllele ir numR sql s ids = Except.ok s') :
    ∃ c, classify ir numR ids = Except.ok c ∧
      s'.totals = bumpTotals c s.totals ∧
      s'.individual = s.individual.map (fun r => bumpN c ((ids.map f).count r.id) r) := by
  obtain ⟨c, sqlList, hc, hm, hs⟩ := applyAllele_ok_inversion ir numR sql s ids s' h
  have hmm : ids.mapM (fun i => match dictGet? sql i with
      | none => Except.error (FillError.missingSqlId i)
      | some si => Except.ok si) = Except.ok (ids.map f) :=
    mapM_ok_of_forall _ f ids (fun i hi => by rw [hsql i hi])
  rw [hmm] at hm
  injection hm with hm
  subst hm
  subst hs
  exact ⟨c, hc, rfl, foldl_updateRow_eq c (ids.map f) s.individual⟩

theorem nodeMatch_ok {ts : TreeSeq} {n : Nat} {nd : TsNode}
    (h : (match ts.nodes.get? n with
      | none => Except.error (FillError.missingNode n)
      | some x => Except.ok x) = Except.ok nd) : ts.nodes.get? n = some nd := by
  cases hx : ts.nodes.get? n with
  | none => rw [hx] at h; cases h
  | some x => rw [hx] at h; injection h with h; rw [h]

theorem mem_carrierNodes_iff {v : Variant} {k n : Nat} :
    n ∈ carrierNodes v k ↔ v.genotypes.get? n = some k := by
  unfold carrierNodes
  rw [List.mem_filter, List.mem_range]
  constructor
  · rintro ⟨_, h⟩
    exact of_decide_eq_true h
  · intro h
    obtain ⟨hlt, _⟩ := List.get?_eq_some.mp h
    exact ⟨hlt, decide_eq_true h⟩

theorem carrierIndividuals_mem_iff (ts : TreeSeq) (v : Variant) (k : Nat) (ids : List Nat)
    (h : carrierIndividuals ts v k = Except.ok ids) :
    ids.Nodup ∧
    ∀ i, i ∈ ids ↔ ∃ n nd, v.genotypes.get? n = some k ∧ ts.nodes.get? n = some nd ∧
      nd.individual = i := by
  unfold carrierIndividuals at h
  cases hm : (carrierNodes v k).mapM (fun n => match ts.nodes.get? n with
    | none => Except.error (FillError.missingNode n)
    | some nd => Except.ok nd) with
  | error e => rw [hm, exceptBind_error] at h; cases h
  | ok fullNodes =>
    rw [hm, exceptBind_ok] at h
    injection h with h
    obtain ⟨hlen, hall⟩ := mapM_ok_inversion _ _ _ hm
    subst h
    refine ⟨List.nodup_dedup _, fun i => ?_⟩
    rw [List.mem_dedup, List.mem_map]
    constructor
    · rintro ⟨nd, hnd, rfl⟩
      obtain ⟨j, hj⟩ := List.get?_of_mem hnd
      obtain ⟨hjlt, _⟩ := List.get?_eq_some.mp hj
      have hjlt' : j < (carrierNodes v k).length := by omega
      have hn := List.get?_eq_get hjlt'
      have hok := hall j _ nd hn hj
      refine ⟨(carrierNodes v k).get ⟨j, hjlt'⟩, nd, ?_, nodeMatch_ok hok, rfl⟩
      exact mem_carrierNodes_iff.mp (List.get_mem _ _ _)
    · rintro ⟨n, nd, hg, hn, rfl⟩
      have hmem : n ∈ carrierNodes v k := mem_carrierNodes_iff.mpr hg
      obtain ⟨j, hj⟩ := List.get?_of_mem hmem
      obtain ⟨hjlt, _⟩ := List.get?_eq_some.mp hj
      have hjlt' : j < fullNodes.length := by omega
      have hfj := List.get?_eq_get hjlt'
      have hok := hall j n (fullNodes.get ⟨j, hjlt'⟩) hj hfj
      have := nodeMatch_ok hok
      rw [hn] at this
      injection this with this
      exact ⟨fullNodes.get ⟨j, hjlt'⟩, List.get_mem _ _ _, by rw [← this]⟩

/-! ### Claims C1-C4 -/

/-- Claim C1 (counterexample): the classification is not evaluated against
the count of distinct regions present in the dataset.  In `tsAB` the two
carriers of the derived allele cover every region occurring in the dataset
(A and B), so the claim as stated demands `all_regions`, but the code
compares against the three distinct regions of the static mapping
`regions3` and yields `some_regions`. -/
theorem C1_counterexample :
    resolveAll regions3 tsAB = Except.ok stAB ∧
    carrierIndividuals tsAB variantAB 1 = Except.ok [0, 1] ∧
    [dictGet? stAB.individual_regions 0, dictGet? stAB.individual_regions 1]
      = [some "A", some "B"] ∧
    (stAB.individual_regions.map (fun q => q.2)).dedup = ["A", "B"] ∧
    numRegions regions3 = 3 ∧
    classify stAB.individual_regions (numRegions regions3) [0, 1]
      = Except.ok Category.some_regions ∧
    Category.some_regions ≠ Category.all_regions ∧
    fill regions3 initStore tsAB
      = Except.ok ⟨[⟨0, "I1", "A", 0, 1, 0, 0⟩, ⟨1, "I2", "B", 0, 1, 0, 0⟩],
                   ⟨0, 1, 0, 0⟩⟩ := by
  refine ⟨by decide, by decide, by decide, by decide, by decide, by decide, by decide,
    by decide⟩

/-- Claim C1 (amended): for every variant-allele event, the breadth category
assigned to the deduplicated carrier set is `one_person` when the set has
exactly one individual (regardless of region); otherwise `one_region` when
all carriers' regions are the same; `some_regions` when the carriers'
distinct regions number more than one but fewer than the count of distinct
regions among the values of the static region mapping; and `all_regions`
when the carriers' distinct regions reach that count. -/
theorem C1_amended_classification (ir : List (Nat × String)) (regions : RegionMap)
    (ids : List Nat) (p : Nat → String)
    (hr : ∀ i ∈ ids, dictGet? ir i = some (p i)) :
    (ids.length = 1 →
      classify ir (numRegions regions) ids = Except.ok Category.one_person) ∧
    (ids.length ≠ 1 → (ids.map p).dedup.length = 1 →
      classify ir (numRegions regions) ids = Except.ok Category.one_region) ∧
    (ids.length ≠ 1 → 1 < (ids.map p).dedup.length →
      (ids.map p).dedup.length < numRegions regions →
      classify ir (numRegions regions) ids = Except.ok Category.some_regions) ∧
    (ids.length ≠ 1 → 1 < (ids.map p).dedup.length →
      numRegions regions ≤ (ids.map p).dedup.length →
      classify ir (numRegions regions) ids = Except.ok Category.all_regions) := by
  have hm : ids.mapM (fun i => match dictGet? ir i with
      | none => Except.error (FillError.missingIndividualRegion i)
      | some r => Except.ok r) = Except.ok (ids.map p) :=
    mapM_ok_of_forall _ p ids (fun i hi => by rw [hr i hi])
  refine ⟨?_, ?_, ?_, ?_⟩
  · intro h1
    unfold classify
    rw [if_pos h1]
  · intro h1 h2
    unfold classify
    rw [if_neg h1, hm, exceptBind_ok, if_pos h2]
  · intro h1 h2 h3
    unfold classify
    rw [if_neg h1, hm, exceptBind_ok, if_neg (by omega), if_pos h3]
  · intro h1 h2 h3
    unfold classify
    rw [if_neg h1, hm, exceptBind_ok, if_neg (by omega), if_neg (by omega)]

/-- Witness for the amended claim C1 at a concrete input. -/
theorem C1_amended_classification_witness :
    (([0] : List Nat).length = 1 →
      classify [(0, "A")] (numRegions regionsOne) [0] = Except.ok Category.one_person) ∧
    (([0] : List Nat).length ≠ 1 → (([0] : List Nat).map (fun _ => "A")).dedup.length = 1 →
      classify [(0, "A")] (numRegions regionsOne) [0] = Except.ok Category.one_region) ∧
    (([0] : List Nat).length ≠ 1 → 1 < (([0] : List Nat).map (fun _ => "A")).dedup.length →
      (([0] : List Nat).map (fun _ => "A")).dedup.length < numRegions regionsOne →
      classify [(0, "A")] (numRegions regionsOne) [0] = Except.ok Category.some_regions) ∧
    (([0] : List Nat).length ≠ 1 → 1 < (([0] : List Nat).map (fun _ => "A")).dedup.length →
      numRegions regionsOne ≤ (([0] : List Nat).map (fun _ => "A")).dedup.length →
      classify [(0, "A")] (numRegions regionsOne) [0] = Except.ok Category.all_regions) :=
  C1_amended_classification [(0, "A")] regionsOne [0] (fun _ => "A") (by decide)

/-- Claim C2: for every variant-allele event, each individual in the carrier
set has exactly one of its four counters incremented (the one of the
assigned category) and the other three unchanged; rows whose id is not a
carrier's are untouched. -/
theorem C2_mutually_exclusive_increment (ir : List (Nat × String)) (numR : Nat)
    (sql : List (Nat × Nat)) (s s' : Store) (ids : List Nat) (f : Nat → Nat)
    (hnd : ids.Nodup)
    (hsql : ∀ i ∈ ids, dictGet? sql i = some (f i))
    (hinj : ∀ i ∈ ids, ∀ j ∈ ids, f i = f j → i = j)
    (h : applyAllele ir numR sql s ids = Except.ok s') :
    ∃ c, classify ir numR ids = Except.ok c ∧
      ∀ j r, s.individual.get? j = some r →
        ∃ r', s'.individual.get? j = some r' ∧
          ((∃ i ∈ ids, f i = r.id) →
            counter c r' = counter c r + 1 ∧
            ∀ c', c' ≠ c → counter c' r' = counter c' r) ∧
          ((∀ i ∈ ids, ¬ f i = r.id) → r' = r) := by
  obtain ⟨c, hc, _, hrows⟩ := applyAllele_spec ir numR sql s s' ids f hsql h
  refine ⟨c, hc, fun j r hr => ?_⟩
  refine ⟨bumpN c ((ids.map f).count r.id) r, ?_, ?_, ?_⟩
  · rw [hrows, List.get?_map, hr]
    rfl
  · rintro ⟨i, hi, hfi⟩
    have h1 : (ids.map f).count r.id = 1 := by
      rw [← hfi]
      exact count_map_one_of_inj_on hnd hinj hi
    rw [h1]
    constructor
    · show counter c (bump c r) = counter c r + 1
      rw [counter_bump, if_pos rfl]
    · intro c' hne
      show counter c' (bump c r) = counter c' r
      rw [counter_bump, if_neg hne]
      omega
  · intro hno
    have h0 : (ids.map f).count r.id = 0 := count_map_zero_of_forall_ne hno
    rw [h0]
    rfl

/-- Witness for claim C2 at a concrete input. -/
theorem C2_mutually_exclusive_increment_witness :
    ∃ c, classify irPair 2 [0, 1] = Except.ok c ∧
      ∀ j r, storePair.individual.get? j = some r →
        ∃ r', storePairAfterAll.individual.get? j = some r' ∧
          ((∃ i ∈ [0, 1], (fun i => i) i = r.id) →
            counter c r' = counter c r + 1 ∧
            ∀ c', c' ≠ c → counter c' r' = counter c' r) ∧
          ((∀ i ∈ [0, 1], ¬ (fun i => i) i = r.id) → r' = r) :=
  C2_mutually_exclusive_increment irPair 2 sqlPair storePair storePairAfterAll
    [0, 1] (fun i => i) (by decide) (by decide) (by decide) (by decide)

/-- Claim C3: for every variant-allele event, the carrier set is the
deduplicated set of owning individuals of the sample nodes carrying the
allele, the assigned-category counter of every distinct carrier's row is
incremented by exactly one, and the global total of the assigned category is
incremented by exactly one for the whole event, independent of the number of
carriers. -/
theorem C3_carrier_set_and_increments (ts : TreeSeq) (v : Variant) (k : Nat)
    (ids : List Nat) (ir : List (Nat × String)) (numR : Nat) (sql : List (Nat × Nat))
    (s s' : Store) (f : Nat → Nat)
    (hcar : carrierIndividuals ts v k = Except.ok ids)
    (hsql : ∀ i ∈ ids, dictGet? sql i = some (f i))
    (hinj : ∀ i ∈ ids, ∀ j ∈ ids, f i = f j → i = j)
    (h : applyAllele ir numR sql s ids = Except.ok s') :
    ids.Nodup ∧
    (∀ i, i ∈ ids ↔ ∃ n nd, v.genotypes.get? n = some k ∧ ts.nodes.get? n = some nd ∧
      nd.individual = i) ∧
    ∃ c, classify ir numR ids = Except.ok c ∧
      counterT c s'.totals = counterT c s.totals + 1 ∧
      (∀ c', c' ≠ c → counterT c' s'.totals = counterT c' s.totals) ∧
      ∀ j r, s.individual.get? j = some r → (∃ i ∈ ids, f i = r.id) →
        ∃ r', s'.individual.get? j = some r' ∧ counter c r' = counter c r + 1 := by
  obtain ⟨hnd, hmem⟩ := carrierIndividuals_mem_iff ts v k ids hcar
  obtain ⟨c, hc, htot, hrows⟩ := applyAllele_spec ir numR sql s s' ids f hsql h
  refine ⟨hnd, hmem, c, hc, ?_, ?_, ?_⟩
  · rw [htot, counterT_bumpTotals, if_pos rfl]
  · intro c' hne
    rw [htot, counterT_bumpTotals, if_neg hne]
    omega
  · rintro j r hr ⟨i, hi, hfi⟩
    refine ⟨bumpN c ((ids.map f).count r.id) r, ?_, ?_⟩
    · rw [hrows, List.get?_map, hr]
      rfl
    · have h1 : (ids.map f).count r.id = 1 := by
        rw [← hfi]
        exact count_map_one_of_inj_on hnd hinj hi
      rw [h1]
      show counter c (bump c r) = counter c r + 1
      rw [counter_bump, if_pos rfl]

/-- Witness for claim C3 at a concrete input. -/
theorem C3_carrier_set_and_increments_witness :
    ([0, 1] : List Nat).Nodup ∧
    (∀ i, i ∈ ([0, 1] : List Nat) ↔ ∃ n nd, variantAB.genotypes.get? n = some 1 ∧
      tsAB.nodes.get? n = some nd ∧ nd.individual = i) ∧
    ∃ c, classify irPair 3 [0, 1] = Except.ok c ∧
      counterT c storePairAfterSome.totals = counterT c storePair.totals + 1 ∧
      (∀ c', c' ≠ c → counterT c' storePairAfterSome.totals = counterT c' storePair.totals) ∧
      ∀ j r, storePair.individual.get? j = some r →
        (∃ i ∈ ([0, 1] : List Nat), (fun i => i) i = r.id) →
        ∃ r', storePairAfterSome.individual.get? j = some r' ∧
          counter c r' = counter c r + 1 :=
  C3_carrier_set_and_increments tsAB variantAB 1 [0, 1] irPair 3 sqlPair
    storePair storePairAfterSome (fun i => i) (by decide) (by decide) (by decide)
    (by decide)

/-- The body of the allele loop is a shift: its effect on the store is a
fixed per-id increment pattern, independent of the counters already
stored. -/
theorem alleleStep_shiftRun (ts : TreeSeq) (ir : List (Nat × String)) (numR : Nat)
    (sql : List (Nat × Nat)) (v : Variant) (ka : Nat × String) :
    ShiftRun (fun s => alleleStep ts ir numR sql v s ka) := by
  intro sA sA' h
  replace h : alleleStep ts ir numR sql v sA ka = Except.ok sA' := h
  unfold alleleStep at h
  by_cases hskip : ka.1 = 0 ∨ ka.2 = ""
  · rw [if_pos hskip] at h
    injection h with h
    refine ⟨fun _ _ => 0, fun _ => 0, by rw [← h, addRows_zero], by rw [← h, addT_zero],
      fun sB _ => ?_⟩
    show alleleStep ts ir numR sql v sB ka = _
    unfold alleleStep
    rw [if_pos hskip, addRows_zero, addT_zero]
  · rw [if_neg hskip] at h
    cases hcar : carrierIndividuals ts v ka.1 with
    | error e => rw [hcar, exceptBind_error] at h; cases h
    | ok ids =>
      rw [hcar, exceptBind_ok] at h
      obtain ⟨c, sqlList, hc, hm, hs⟩ := applyAllele_ok_inversion _ _ _ _ _ _ h
      refine ⟨fun idv c' => if c' = c then sqlList.count idv else 0,
              fun c' => if c' = c then 1 else 0, ?_, ?_, ?_⟩
      · rw [hs]
        show sqlList.foldl (fun rows si => updateRow rows si c) sA.individual = _
        rw [foldl_updateRow_eq]
        exact List.map_congr_left (fun r _ => bumpN_eq_addC c _ r)
      · rw [hs]
        exact bumpTotals_eq_addT c sA.totals
      · intro sB _
        show alleleStep ts ir numR sql v sB ka = _
        unfold alleleStep
        rw [if_neg hskip, hcar, exceptBind_ok]
        unfold applyAllele
        rw [hc, exceptBind_ok, hm, exceptBind_ok]
        refine congrArg Except.ok ?_
        refine congrArg₂ Store.mk ?_ (bumpTotals_eq_addT c sB.totals)
        rw [foldl_updateRow_eq]
        exact List.map_congr_left (fun r _ => bumpN_eq_addC c _ r)

/-- `foldlM` of shifts is a shift. -/
theorem shiftRun_foldlM {α : Type} (σ : Store → α → Except FillError Store)
    (hσ : ∀ a, ShiftRun (fun s => σ s a)) :
    ∀ l : List α, ShiftRun (fun s => l.foldlM σ s) := by
  intro l
  induction l with
  | nil =>
    intro sA sA' h
    replace h : Except.ok sA = Except.ok sA' := h
    injection h with h
    refine ⟨fun _ _ => 0, fun _ => 0, by rw [← h, addRows_zero], by rw [← h, addT_zero],
      fun sB _ => ?_⟩
    show List.foldlM σ sB [] = _
    rw [List.foldlM_nil, addRows_zero, addT_zero]
    rfl
  | cons a t ih =>
    intro sA sA' h
    replace h : (σ sA a >>= fun s1 => t.foldlM σ s1) = Except.ok sA' := h
    cases h1 : σ sA a with
    | error e => rw [h1, exceptBind_error] at h; cases h
    | ok s1 =>
      rw [h1, exceptBind_ok] at h
      obtain ⟨d1, dT1, hA1i, hA1t, hrep1⟩ := hσ a sA s1 h1
      obtain ⟨d2, dT2, hA2i, hA2t, hrep2⟩ := ih s1 sA' h
      refine ⟨fun i c => d1 i c + d2 i c, fun c => dT1 c + dT2 c, ?_, ?_, ?_⟩
      · rw [hA2i, hA1i, addRows_addRows]
      · rw [hA2t, hA1t, addT_addT]
      · intro sB hB
        show List.foldlM σ sB (a :: t) = _
        rw [List.foldlM_cons]
        have hB1 : σ sB a
            = Except.ok ⟨addRows d1 sB.individual, addT dT1 sB.totals⟩ := hrep1 sB hB
        rw [hB1, exceptBind_ok]
        have hidseq :
            (Store.mk (addRows d1 sB.individual) (addT dT1 sB.totals)).individual.map
                (fun r => r.id)
              = s1.individual.map (fun r => r.id) := by
          show (addRows d1 sB.individual).map (fun r => r.id) = _
          rw [addRows_map_id, hB, hA1i, addRows_map_id]
        have h2 : List.foldlM σ (⟨addRows d1 sB.individual, addT dT1 sB.totals⟩ : Store) t
            = Except.ok ⟨addRows d2 (addRows d1 sB.individual),
                         addT dT2 (addT dT1 sB.totals)⟩ :=
          hrep2 ⟨addRows d1 sB.individual, addT dT1 sB.totals⟩ hidseq
        rw [h2]
        refine congrArg Except.ok ?_
        refine congrArg₂ Store.mk ?_ ?_
        · show addRows d2 (addRows d1 sB.individual) = _
          rw [addRows_addRows]
        · show addT dT2 (addT dT1 sB.totals) = _
          rw [addT_addT]

/-- The variant loop of `fill` is a shift. -/
theorem runVariants_shiftRun (ts : TreeSeq) (ir : List (Nat × String)) (numR : Nat)
    (sql : List (Nat × Nat)) :
    ShiftRun (fun s => runVariants ts ir numR sql s) :=
  shiftRun_foldlM (fun s v => processVariant ts ir numR sql s v)
    (fun v => shiftRun_foldlM (fun s ka => alleleStep ts ir numR sql v s ka)
      (fun ka => alleleStep_shiftRun ts ir numR sql v ka) v.alleles.enum)
    ts.variants

/-! ### Reconciliation and resolver-loop lemmas -/

/-- On an empty individual table, `fill` uses the identity id mapping and
inserts one all-zero row per entry of the `individuals` dict. -/
theorem reconcile_empty (individuals : List (String × Nat × String)) :
    reconcile individuals [] =
      Except.ok (individuals.map (fun p => (p.2.1, p.2.1)),
                 individuals.map initialRow) := rfl

/-- On a non-empty individual table whose names all resolve, the
reconciliation neither inserts nor deletes rows and builds the dict sending
each row's looked-up dataset id to the row's stored id. -/
theorem reconcile_nonempty (individuals : List (String × Nat × String))
    (rows : List IndividualRow) (t : IndividualRow → Nat)
    (hne : rows ≠ [])
    (hlook : ∀ r ∈ rows, ∃ reg, dictGet? individuals r.name = some (t r, reg))
    (hnd : (rows.map t).Nodup) :
    reconcile individuals rows
      = Except.ok (rows.map (fun r => (t r, r.id)), rows) := by
  have main : ∀ (rows' : List IndividualRow) (acc : List (Nat × Nat)),
      (∀ r ∈ rows', ∃ reg, dictGet? individuals r.name = some (t r, reg)) →
      (rows'.map t).Nodup →
      (∀ r ∈ rows', t r ∉ acc.map Prod.fst) →
      rows'.foldlM (fun acc r => match dictGet? individuals r.name with
        | none => Except.error (FillError.missingName r.name)
        | some q => Except.ok (dictSet acc q.1 r.id)) acc
        = Except.ok (acc ++ rows'.map (fun r => (t r, r.id))) := by
    intro rows'
    induction rows' with
    | nil =>
      intro acc _ _ _
      simp
      rfl
    | cons r rt ih =>
      intro acc hlook1 hnd1 hfresh
      rw [List.foldlM_cons]
      obtain ⟨reg, hr⟩ := hlook1 r (List.mem_cons_self r rt)
      rw [hr, exceptBind_ok,
          dictSet_of_not_mem _ (hfresh r (List.mem_cons_self r rt))]
      rw [List.map_cons, List.nodup_cons] at hnd1
      have hfresh' : ∀ q ∈ rt, t q ∉ (acc ++ [(t r, r.id)]).map Prod.fst := by
        intro q hq
        rw [List.map_append, List.mem_append]
        rintro (hin | hin)
        · exact hfresh q (List.mem_cons_of_mem r hq) hin
        · have : t q = t r := by simpa using hin
          exact hnd1.1 (this ▸ List.mem_map.mpr ⟨q, hq, rfl⟩)
      rw [ih (acc ++ [(t r, r.id)])
            (fun q hq => hlook1 q (List.mem_cons_of_mem r hq)) hnd1.2 hfresh']
      rw [List.map_cons, List.append_assoc]
      rfl
  unfold reconcile
  rw [if_neg (by simpa [List.isEmpty_iff] using hne)]
  rw [main rows [] hlook hnd (by simp), exceptBind_ok, List.nil_append]

/-- The new value of `individuals[nm]` keeps the key set's uniqueness. -/
theorem dictSet_nodup_fst {α β : Type} [DecidableEq α] {l : List (α × β)} {k : α} (v : β)
    (h : (l.map Prod.fst).Nodup) : ((dictSet l k v).map Prod.fst).Nodup := by
  by_cases hm : k ∈ l.map Prod.fst
  · rw [dictSet_map_fst_of_mem v hm]
    exact h
  · rw [dictSet_of_not_mem v hm, List.map_append]
    rw [List.nodup_append]
    exact ⟨h, List.nodup_singleton k, by simpa using hm⟩

/-- Writing a fresh dataset id under any key keeps the value ids unique. -/
theorem dictSet_ids_nodup {l : List (String × Nat × String)} {k : String}
    {v : Nat × String}
    (hk : (l.map Prod.fst).Nodup) (hids : (l.map (fun q => q.2.1)).Nodup)
    (hfresh : v.1 ∉ l.map (fun q => q.2.1)) :
    ((dictSet l k v).map (fun q => q.2.1)).Nodup := by
  by_cases hm : k ∈ l.map Prod.fst
  · have ha : l.any (fun p => p.1 = k) = true := by
      rcases List.mem_map.mp hm with ⟨p, hp, he⟩
      exact List.any_eq_true.mpr ⟨p, hp, by simp [he]⟩
    unfold dictSet
    rw [if_pos ha, List.map_map]
    have hk' := List.pairwise_map.mp hk
    have hids' := List.pairwise_map.mp hids
    refine List.pairwise_map.mpr ((hk'.and hids').imp_of_mem ?_)
    intro a b hia hib hab
    show (if a.1 = k then ((k, v) : String × Nat × String) else a).2.1
      ≠ (if b.1 = k then ((k, v) : String × Nat × String) else b).2.1
    by_cases h1 : a.1 = k <;> by_cases h2 : b.1 = k
    · exact absurd (h1.trans h2.symm) hab.1
    · rw [if_pos h1, if_neg h2]
      intro he
      apply hfresh
      rw [show v.1 = b.2.1 from he]
      exact List.mem_map.mpr ⟨b, hib, rfl⟩
    · rw [if_neg h1, if_pos h2]
      intro he
      apply hfresh
      rw [show v.1 = a.2.1 from he.symm]
      exact List.mem_map.mpr ⟨a, hia, rfl⟩
    · rw [if_neg h1, if_neg h2]
      exact hab.2
  · rw [dictSet_of_not_mem v hm, List.map_append, List.nodup_append]
    exact ⟨hids, List.nodup_singleton _, by simpa using hfresh⟩

/-- Inversion of one successful iteration of the individuals loop. -/
theorem processIndividual_ok (regions : RegionMap) (ts : TreeSeq) (st : ResolveState)
    (p : Nat × TsIndividual) (st1 : ResolveState)
    (h : processIndividual regions ts st p = Except.ok st1) :
    ∃ source nm region,
      resolveSourceName p.2.metadata st.prev = some (source, nm) ∧
      st1 = ⟨some (source, nm), dictSet st.individual_regions p.1 region,
             dictSet st.individuals nm (p.1, region)⟩ := by
  cases h1 : resolveSourceName p.2.metadata st.prev with
  | none =>
    simp only [processIndividual, h1] at h
    exact Except.noConfusion h
  | some sn =>
    obtain ⟨source, nm⟩ := sn
    cases h2 : p.2.nodes.head? with
    | none =>
      simp only [processIndividual, h1, h2] at h
      exact Except.noConfusion h
    | some n0 =>
      cases h3 : ts.nodes.get? n0 with
      | none =>
        simp only [processIndividual, h1, h2, h3] at h
        exact Except.noConfusion h
      | some nd =>
        cases h4 : ts.populationNames.get? nd.population with
        | none =>
          simp only [processIndividual, h1, h2, h3, h4] at h
          exact Except.noConfusion h
        | some popName =>
          cases h5 : dictGet? regions (source, popName) with
          | none =>
            simp only [processIndividual, h1, h2, h3, h4, h5] at h
            exact Except.noConfusion h
          | some region =>
            simp only [processIndividual, h1, h2, h3, h4, h5] at h
            injection h with h
            exact ⟨source, nm, region, rfl, h.symm⟩

/-- Along any successful prefix of the individuals loop whose indices are
fresh and duplicate-free, the `individuals` dict keeps unique names and
unique dataset ids. -/
theorem resolveFold_nodup (regions : RegionMap) (ts : TreeSeq) :
    ∀ (l : List (Nat × TsIndividual)) (st0 st : ResolveState),
      l.foldlM (processIndividual regions ts) st0 = Except.ok st →
      (l.map Prod.fst).Nodup →
      (st0.individuals.map Prod.fst).Nodup →
      (st0.individuals.map (fun q => q.2.1)).Nodup →
      (∀ q ∈ st0.individuals, q.2.1 ∉ l.map Prod.fst) →
      (st.individuals.map Prod.fst).Nodup ∧
      (st.individuals.map (fun q => q.2.1)).Nodup := by
  intro l
  induction l with
  | nil =>
    intro st0 st h _ h1 h2 _
    replace h : Except.ok st0 = Except.ok st := h
    injection h with h
    subst h
    exact ⟨h1, h2⟩
  | cons p t ih =>
    intro st0 st h hl h1 h2 hfresh
    rw [List.foldlM_cons] at h
    cases hp : processIndividual regions ts st0 p with
    | error e => rw [hp, exceptBind_error] at h; cases h
    | ok st1 =>
      rw [hp, exceptBind_ok] at h
      obtain ⟨source, nm, region, hsn, hst1⟩ := processIndividual_ok _ _ _ _ _ hp
      rw [List.map_cons, List.nodup_cons] at hl
      have hfreshid : p.1 ∉ st0.individuals.map (fun q => q.2.1) := by
        intro hmem
        rcases List.mem_map.mp hmem with ⟨q, hq, he⟩
        exact hfresh q hq (by rw [List.map_cons]; exact he ▸ List.mem_cons_self _ _)
      refine ih st1 st h hl.2 ?_ ?_ ?_
      · rw [hst1]
        exact dictSet_nodup_fst _ h1
      · rw [hst1]
        exact dictSet_ids_nodup h1 h2 hfreshid
      · intro q hq
        rw [hst1] at hq
        rcases mem_dictSet hq with hnew | hold
        · rw [hnew]
          show p.1 ∉ t.map Prod.fst
          exact hl.1
        · intro hin
          exact hfresh q hold (by rw [List.map_cons]; exact List.mem_cons_of_mem _ hin)

/-- A successful run of the individuals loop keeps unique names and unique
dataset ids in the `individuals` dict. -/
theorem resolveAll_nodup (regions : RegionMap) (ts : TreeSeq) (st : ResolveState)
    (h : resolveAll regions ts = Except.ok st) :
    (st.individuals.map Prod.fst).Nodup ∧
    (st.individuals.map (fun q => q.2.1)).Nodup := by
  refine resolveFold_nodup regions ts ts.individuals.enum ⟨none, [], []⟩ st h ?_ ?_ ?_ ?_
  · rw [show ts.individuals.enum = ts.individuals.enumFrom 0 from rfl,
        List.enumFrom_map_fst]
    exact List.nodup_range' 0 ts.individuals.length
  · exact List.nodup_nil
  · exact List.nodup_nil
  · intro q hq
    cases hq

theorem counterT_zero (c : Category) : counterT c ⟨0, 0, 0, 0⟩ = 0 := by
  cases c <;> rfl

theorem counter_initialRow (c : Category) (p : String × Nat × String) :
    counter c (initialRow p) = 0 := by
  cases c <;> rfl

/-- Claim C5 (counterexample): running `fill` a second time over the same
dataset and region mapping, against the store produced by the first run,
doubles the per-individual counters and the global totals instead of leaving
them unchanged. -/
theorem C5_counterexample :
    fill regionsOne initStore tsOne = Except.ok storeOne1 ∧
    fill regionsOne storeOne1 tsOne = Except.ok storeOne2 ∧
    storeOne2 ≠ storeOne1 ∧
    storeOne1.totals.one_person = 1 ∧
    storeOne2.totals.one_person = 2 := by
  refine ⟨by decide, by decide, by decide, by decide, by decide⟩

/-- Claim C5 (amended): `fill` is not idempotent under re-invocation: run
against the store produced by a first run from an initialized store, a
second run over the same dataset file and identity mapping succeeds and
doubles every per-individual counter and every global category total (the
store accumulates; nothing guards against double aggregation). -/
theorem C5_amended_double_counting (regions : RegionMap) (ts : TreeSeq) (s1 : Store)
    (h1 : fill regions initStore ts = Except.ok s1)
    (hne : s1.individual ≠ []) :
    ∃ s2, fill regions s1 ts = Except.ok s2 ∧
      (∀ c, counterT c s2.totals = 2 * counterT c s1.totals) ∧
      s2.individual.length = s1.individual.length ∧
      ∀ j r1, s1.individual.get? j = some r1 →
        ∃ r2, s2.individual.get? j = some r2 ∧
          r2.id = r1.id ∧ r2.name = r1.name ∧ r2.region = r1.region ∧
          ∀ c, counter c r2 = 2 * counter c r1 := by
  unfold fill at h1
  cases hres : resolveAll regions ts with
  | error e =>
    rw [hres, exceptBind_error] at h1
    exact Except.noConfusion h1
  | ok st =>
    rw [hres, exceptBind_ok,
        show (initStore.individual : List IndividualRow) = [] from rfl,
        reconcile_empty, exceptBind_ok] at h1
    replace h1 : runVariants ts st.individual_regions (numRegions regions)
        (st.individuals.map (fun p => (p.2.1, p.2.1)))
        ⟨st.individuals.map initialRow, ⟨0, 0, 0, 0⟩⟩ = Except.ok s1 := h1
    obtain ⟨hkeys, hids⟩ := resolveAll_nodup regions ts st hres
    obtain ⟨d, dT, hA1i, hA1t, hrep⟩ :=
      runVariants_shiftRun ts st.individual_regions (numRegions regions)
        (st.individuals.map (fun p => (p.2.1, p.2.1)))
        ⟨st.individuals.map initialRow, ⟨0, 0, 0, 0⟩⟩ s1 h1
    have hA1i' : s1.individual = addRows d (st.individuals.map initialRow) := hA1i
    have hA1t' : s1.totals = addT dT ⟨0, 0, 0, 0⟩ := hA1t
    have hlook : ∀ r ∈ s1.individual,
        ∃ reg, dictGet? st.individuals r.name = some (r.id, reg) := by
      intro r hr
      rw [hA1i'] at hr
      rcases List.mem_map.mp hr with ⟨r0, hr0, he⟩
      rcases List.mem_map.mp hr0 with ⟨e, he', he0⟩
      refine ⟨e.2.2, ?_⟩
      have hr_name : r.name = e.1 := by rw [← he, ← he0]; rfl
      have hr_id : r.id = e.2.1 := by rw [← he, ← he0]; rfl
      rw [hr_name, hr_id]
      exact dictGet?_of_mem_of_nodup hkeys (by simpa using he')
    have hnd2 : (s1.individual.map (fun r => r.id)).Nodup := by
      rw [hA1i', addRows_map_id, List.map_map]
      exact hids
    have hsql0 : s1.individual.map (fun r => (r.id, r.id))
        = st.individuals.map (fun p => (p.2.1, p.2.1)) := by
      rw [hA1i', addRows, List.map_map, List.map_map]
      rfl
    refine ⟨⟨addRows d s1.individual, addT dT s1.totals⟩, ?_, ?_, ?_, ?_⟩
    · show fill regions s1 ts = _
      unfold fill
      rw [hres, exceptBind_ok,
          reconcile_nonempty st.individuals s1.individual (fun r => r.id) hne hlook hnd2,
          exceptBind_ok]
      have hgoal : runVariants ts st.individual_regions (numRegions regions)
          (s1.individual.map (fun r => (r.id, r.id))) s1
          = Except.ok ⟨addRows d s1.individual, addT dT s1.totals⟩ := by
        rw [hsql0]
        exact hrep s1 (by rw [hA1i', addRows_map_id])
      exact hgoal
    · intro c
      show counterT c (addT dT s1.totals) = 2 * counterT c s1.totals
      rw [counterT_addT]
      have : counterT c s1.totals = dT c := by
        rw [hA1t', counterT_addT, counterT_zero]
        omega
      omega
    · show (addRows d s1.individual).length = s1.individual.length
      rw [addRows]
      exact List.length_map _ _
    · intro j r1 hj
      refine ⟨addC (d r1.id) r1, ?_, rfl, rfl, rfl, ?_⟩
      · show (addRows d s1.individual).get? j = _
        rw [addRows, List.get?_map, hj]
        rfl
      · intro c
        rw [counter_addC]
        have hj0 : ((st.individuals.map initialRow).map
            (fun r => addC (d r.id) r)).get? j = some r1 := by
          rw [← addRows, ← hA1i']
          exact hj
        rw [List.get?_map] at hj0
        cases hr0 : (st.individuals.map initialRow).get? j with
        | none => rw [hr0] at hj0; cases hj0
        | some r0 =>
          rw [hr0] at hj0
          injection hj0 with hj0
          rcases List.mem_map.mp (List.get?_mem hr0) with ⟨e, _, he0⟩
          have hzero : counter c r0 = 0 := by
            rw [← he0]
            exact counter_initialRow c e
          have hid : r1.id = r0.id := by rw [← hj0]; rfl
          have hcnt : counter c r1 = d r0.id c := by
            rw [← hj0, counter_addC, hzero]
            omega
          rw [hid, hcnt]
          omega

/-- Witness for the amended claim C5 on the concrete one-individual
dataset. -/
theorem C5_amended_double_counting_witness :
    ∃ s2, fill regionsOne storeOne1 tsOne = Except.ok s2 ∧
      (∀ c, counterT c s2.totals = 2 * counterT c storeOne1.totals) ∧
      s2.individual.length = storeOne1.individual.length ∧
      ∀ j r1, storeOne1.individual.get? j = some r1 →
        ∃ r2, s2.individual.get? j = some r2 ∧
          r2.id = r1.id ∧ r2.name = r1.name ∧ r2.region = r1.region ∧
          ∀ c, counter c r2 = 2 * counter c r1 :=
  C5_amended_double_counting regionsOne tsOne storeOne1 (by decide) (by decide)

/-- Claim C6: on a run against a store with a non-empty individual table,
the reconciliation inserts and deletes nothing, maps each row's
dataset-internal id (looked up under the row's canonical name) to the row's
previously assigned stable id, and the run then changes only counters: ids,
names and regions of the stored rows are preserved. -/
theorem C6_reconciliation_by_name (regions : RegionMap) (ts : TreeSeq)
    (store s' : Store) (st : ResolveState) (sql : List (Nat × Nat))
    (rows : List IndividualRow) (t : IndividualRow → Nat)
    (hres : resolveAll regions ts = Except.ok st)
    (hne : store.individual ≠ [])
    (hlook : ∀ r ∈ store.individual,
      ∃ reg, dictGet? st.individuals r.name = some (t r, reg))
    (hnd : (store.individual.map t).Nodup)
    (hrec : reconcile st.individuals store.individual = Except.ok (sql, rows))
    (hfill : fill regions store ts = Except.ok s') :
    rows = store.individual ∧
    (∀ r ∈ store.individual, dictGet? sql (t r) = some r.id) ∧
    s'.individual.map (fun r => (r.id, r.name, r.region))
      = store.individual.map (fun r => (r.id, r.name, r.region)) := by
  have hrec' := reconcile_nonempty st.individuals store.individual t hne hlook hnd
  rw [hrec'] at hrec
  injection hrec with hrec
  injection hrec with hsql hrows
  refine ⟨hrows.symm, ?_, ?_⟩
  · intro r hr
    rw [← hsql]
    have hkeys : ((store.individual.map (fun r => (t r, r.id))).map Prod.fst).Nodup := by
      rw [List.map_map]
      exact hnd
    exact dictGet?_of_mem_of_nodup hkeys (List.mem_map.mpr ⟨r, hr, rfl⟩)
  · unfold fill at hfill
    rw [hres, exceptBind_ok, hrec', exceptBind_ok] at hfill
    replace hfill : runVariants ts st.individual_regions (numRegions regions)
        (store.individual.map (fun r => (t r, r.id))) store = Except.ok s' := hfill
    obtain ⟨d, dT, hi, _, _⟩ :=
      runVariants_shiftRun ts st.individual_regions (numRegions regions)
        (store.individual.map (fun r => (t r, r.id))) store s' hfill
    rw [hi]
    exact addRows_map_shape d store.individual

/-- Witness for claim C6 on the concrete one-individual dataset against a
pre-existing store whose stable id differs from the dataset id. -/
theorem C6_reconciliation_by_name_witness :
    storeC6pre.individual = storeC6pre.individual ∧
    (∀ r ∈ storeC6pre.individual, dictGet? [(0, 5)] ((fun _ => 0) r) = some r.id) ∧
    storeC6post.individual.map (fun r => (r.id, r.name, r.region))
      = storeC6pre.individual.map (fun r => (r.id, r.name, r.region)) :=
  C6_reconciliation_by_name regionsOne tsOne storeC6pre storeC6post
    ⟨some ("SGDP", "I1"), [(0, "A")], [("I1", 0, "A")]⟩ [(0, 5)]
    storeC6pre.individual (fun _ => 0) (by decide) (by decide)
    (by
      intro r hr
      rw [show storeC6pre.individual
            = [(⟨5, "I1", "A", 3, 0, 0, 1⟩ : IndividualRow)] from rfl,
          List.mem_singleton] at hr
      subst hr
      exact ⟨"A", rfl⟩)
    (by decide) (by decide) (by decide)

theorem dictSet_length_cases {α β : Type} [DecidableEq α] (l : List (α × β)) (k : α)
    (v : β) :
    (dictSet l k v).length = l.length ∨ (dictSet l k v).length = l.length + 1 := by
  by_cases hm : k ∈ l.map Prod.fst
  · left
    have := congrArg List.length (dictSet_map_fst_of_mem v hm)
    simpa using this
  · right
    rw [dictSet_of_not_mem v hm]
    simp

/-- The individuals loop adds at most one dict entry per iteration. -/
theorem resolveFold_length_le (regions : RegionMap) (ts : TreeSeq) :
    ∀ (l : List (Nat × TsIndividual)) (st0 st : ResolveState),
      l.foldlM (processIndividual regions ts) st0 = Except.ok st →
      st.individuals.length ≤ st0.individuals.length + l.length := by
  intro l
  induction l with
  | nil =>
    intro st0 st h
    replace h : Except.ok st0 = Except.ok st := h
    injection h with h
    subst h
    simp
  | cons p t ih =>
    intro st0 st h
    rw [List.foldlM_cons] at h
    cases hp : processIndividual regions ts st0 p with
    | error e => rw [hp, exceptBind_error] at h; exact Except.noConfusion h
    | ok st1 =>
      rw [hp, exceptBind_ok] at h
      obtain ⟨source, nm, region, _, hst1⟩ := processIndividual_ok _ _ _ _ _ hp
      have h1 := ih st1 st h
      have h2 : st1.individuals.length ≤ st0.individuals.length + 1 := by
        rw [hst1]
        show (dictSet st0.individuals nm (p.1, region)).length ≤ _
        rcases dictSet_length_cases st0.individuals nm (p.1, region) with h' | h' <;> omega
      rw [List.length_cons]
      omega

/-- If a successful individuals loop grows the dict by exactly its number of
iterations, every iteration appended a fresh entry, in order, carrying its
own index as the dataset id. -/
theorem resolveFold_append (regions : RegionMap) (ts : TreeSeq) :
    ∀ (l : List (Nat × TsIndividual)) (st0 st : ResolveState),
      l.foldlM (processIndividual regions ts) st0 = Except.ok st →
      st.individuals.length = st0.individuals.length + l.length →
      ∃ es : List (String × Nat × String),
        st.individuals = st0.individuals ++ es ∧
        es.map (fun q => q.2.1) = l.map Prod.fst := by
  intro l
  induction l with
  | nil =>
    intro st0 st h _
    replace h : Except.ok st0 = Except.ok st := h
    injection h with h
    subst h
    exact ⟨[], by simp, by simp⟩
  | cons p t ih =>
    intro st0 st h hlen
    rw [List.foldlM_cons] at h
    cases hp : processIndividual regions ts st0 p with
    | error e => rw [hp, exceptBind_error] at h; exact Except.noConfusion h
    | ok st1 =>
      rw [hp, exceptBind_ok] at h
      obtain ⟨source, nm, region, _, hst1⟩ := processIndividual_ok _ _ _ _ _ hp
      by_cases hm : nm ∈ st0.individuals.map Prod.fst
      · exfalso
        have hsame : st1.individuals.length = st0.individuals.length := by
          rw [hst1]
          have := congrArg List.length (dictSet_map_fst_of_mem (p.1, region) hm)
          simpa using this
        have hle := resolveFold_length_le regions ts t st1 st h
        rw [List.length_cons] at hlen
        omega
      · have hst1' : st1.individuals = st0.individuals ++ [(nm, (p.1, region))] := by
          rw [hst1]
          exact dictSet_of_not_mem _ hm
        have hlen1 : st.individuals.length = st1.individuals.length + t.length := by
          rw [hst1']
          rw [List.length_cons] at hlen
          simp only [List.length_append, List.length_singleton]
          omega
        obtain ⟨es, hes, hids⟩ := ih st1 st h hlen1
        refine ⟨(nm, (p.1, region)) :: es, ?_, ?_⟩
        · rw [hes, hst1', List.append_assoc]
          rfl
        · rw [List.map_cons, hids, List.map_cons]

/-- A list of rows whose ids enumerate `range n` has exactly one row of each
id below `n`. -/
theorem filter_id_eq_singleton {rows : List IndividualRow} {n idx : Nat}
    (h : rows.map (fun r => r.id) = List.range n) (hidx : idx < n) :
    ∃ r, r ∈ rows ∧ r.id = idx ∧ rows.filter (fun r => r.id = idx) = [r] := by
  have h1 : (rows.map (fun r => r.id)).countP (fun i => i = idx) = 1 := by
    rw [h]
    have h2 : List.countP (fun i => i = idx) (List.range n)
        = List.count idx (List.range n) := by
      rw [List.count_eq_countP]
      refine List.countP_congr ?_
      intro x _
      by_cases hx : x = idx <;> simp [hx]
    rw [h2]
    exact List.count_eq_one_of_mem (List.nodup_range n) (List.mem_range.mpr hidx)
  rw [List.countP_map] at h1
  have h1' : (rows.filter (fun r => r.id = idx)).length = 1 := by
    rw [← List.countP_eq_length_filter]
    exact h1
  obtain ⟨r, hr⟩ := List.length_eq_one.mp h1'
  have hrmem : r ∈ rows.filter (fun r => r.id = idx) := by
    rw [hr]
    exact List.mem_singleton_self r
  rw [List.mem_filter] at hrmem
  exact ⟨r, hrmem.1, of_decide_eq_true hrmem.2, hr⟩

/-- Claim C7: when an individual's (source, population-name) pair is absent
from the static region mapping, the lookup error propagates: `fill` aborts
with the corresponding error at that individual instead of skipping it or
assigning a default region. -/
theorem C7_missing_region_aborts (regions : RegionMap) (ts : TreeSeq) (store : Store)
    (pre post : List (Nat × TsIndividual)) (idx : Nat) (ind : TsIndividual)
    (st : ResolveState) (source nm popName : String) (n0 : Nat) (nd : TsNode)
    (hsplit : ts.individuals.enum = pre ++ (idx, ind) :: post)
    (hpre : pre.foldlM (processIndividual regions ts) ⟨none, [], []⟩ = Except.ok st)
    (hname : resolveSourceName ind.metadata st.prev = some (source, nm))
    (hn0 : ind.nodes.head? = some n0)
    (hnd : ts.nodes.get? n0 = some nd)
    (hpop : ts.populationNames.get? nd.population = some popName)
    (hmiss : dictGet? regions (source, popName) = none) :
    fill regions store ts
      = Except.error (FillError.missingRegionFor idx source popName) := by
  have hstep : processIndividual regions ts st (idx, ind)
      = Except.error (FillError.missingRegionFor idx source popName) := by
    simp only [processIndividual, hname, hn0, hnd, hpop, hmiss]
  have hres : resolveAll regions ts
      = Except.error (FillError.missingRegionFor idx source popName) := by
    unfold resolveAll
    rw [hsplit, List.foldlM_append, hpre, exceptBind_ok, List.foldlM_cons, hstep,
        exceptBind_error]
  unfold fill
  rw [hres, exceptBind_error]

/-- Witness for claim C7 on a dataset whose only individual's population is
absent from the mapping. -/
theorem C7_missing_region_aborts_witness :
    fill regionsOne initStore tsC7
      = Except.error (FillError.missingRegionFor 0 "SGDP" "p2") :=
  C7_missing_region_aborts regionsOne tsC7 initStore [] [] 0
    ⟨⟨some "I1", none, none⟩, [0]⟩ ⟨none, [], []⟩ "SGDP" "I1" "p2" 0 ⟨0, 0⟩
    (by decide) (by decide) (by decide) (by decide) (by decide) (by decide) (by decide)

/-- Claim C8 (evaluating the code at the failing input): a metadata record
with none of the three name keys does not abort the run unless it belongs to
the first individual.  For `tsC8`, whose second individual has no name key,
the resolver succeeds, silently reusing the first individual's source and
name ("SGDP", "I1") and overwriting its dict entry; the `NameError` occurs
only when the keyless individual comes first (`tsC8first`). -/
theorem C8_missing_keys_fallthrough :
    resolveAll regionsC8 tsC8
      = Except.ok ⟨some ("SGDP", "I1"), [(0, "A"), (1, "B")], [("I1", 1, "B")]⟩ ∧
    resolveAll regionsC8 tsC8first = Except.error (FillError.nameErrorAt 0) := by
  refine ⟨by decide, by decide⟩

/-- Claim C9: the reporter groups rows by region and reports, for each
region present, the arithmetic mean of each of the four counters over that
region's rows (stated multiplicatively: each reported value times the group
size equals the group's counter sum). -/
theorem C9_region_means (rows : List IndividualRow) (reg : String)
    (h : reg ∈ rows.map (fun r => r.region)) :
    ∃ q1 q2 q3 q4, (reg, q1, q2, q3, q4) ∈ fetch rows ∧
      q1 * ((rows.filter (fun r => r.region = reg)).length : ℚ)
        = (((rows.filter (fun r => r.region = reg)).map (fun r => r.all_regions)).sum : ℚ) ∧
      q2 * ((rows.filter (fun r => r.region = reg)).length : ℚ)
        = (((rows.filter (fun r => r.region = reg)).map (fun r => r.some_regions)).sum : ℚ) ∧
      q3 * ((rows.filter (fun r => r.region = reg)).length : ℚ)
        = (((rows.filter (fun r => r.region = reg)).map (fun r => r.one_region)).sum : ℚ) ∧
      q4 * ((rows.filter (fun r => r.region = reg)).length : ℚ)
        = (((rows.filter (fun r => r.region = reg)).map (fun r => r.one_person)).sum : ℚ) := by
  have hmem : reg ∈ (rows.map (fun r => r.region)).dedup := List.mem_dedup.mpr h
  have hg : rows.filter (fun r => r.region = reg) ≠ [] := by
    rcases List.mem_map.mp h with ⟨r, hr, he⟩
    intro hnil
    have : r ∈ rows.filter (fun r => r.region = reg) :=
      List.mem_filter.mpr ⟨hr, by simp [he]⟩
    rw [hnil] at this
    cases this
  have hlen : ((rows.filter (fun r => r.region = reg)).length : ℚ) ≠ 0 := by
    rw [Nat.cast_ne_zero]
    simpa [List.length_eq_zero] using hg
  refine ⟨avgQ (rows.filter (fun r => r.region = reg)) (fun r => r.all_regions),
          avgQ (rows.filter (fun r => r.region = reg)) (fun r => r.some_regions),
          avgQ (rows.filter (fun r => r.region = reg)) (fun r => r.one_region),
          avgQ (rows.filter (fun r => r.region = reg)) (fun r => r.one_person),
          ?_, ?_, ?_, ?_, ?_⟩
  · unfold fetch
    exact List.mem_map.mpr ⟨reg, hmem, rfl⟩
  all_goals
    unfold avgQ
    rw [div_mul_cancel₀ _ hlen, Nat.cast_list_sum, List.map_map]
    rfl

/-- Witness for claim C9 on the spec's East example: two rows with counters
(2,1,0,0) and (0,1,2,0), whose reported means are (1,1,1,0). -/
theorem C9_region_means_witness :
    (∃ q1 q2 q3 q4, ("East", q1, q2, q3, q4) ∈ fetch eastRows ∧
      q1 * ((eastRows.filter (fun r => r.region = "East")).length : ℚ)
        = (((eastRows.filter (fun r => r.region = "East")).map
            (fun r => r.all_regions)).sum : ℚ) ∧
      q2 * ((eastRows.filter (fun r => r.region = "East")).length : ℚ)
        = (((eastRows.filter (fun r => r.region = "East")).map
            (fun r => r.some_regions)).sum : ℚ) ∧
      q3 * ((eastRows.filter (fun r => r.region = "East")).length : ℚ)
        = (((eastRows.filter (fun r => r.region = "East")).map
            (fun r => r.one_region)).sum : ℚ) ∧
      q4 * ((eastRows.filter (fun r => r.region = "East")).length : ℚ)
        = (((eastRows.filter (fun r => r.region = "East")).map
            (fun r => r.one_person)).sum : ℚ)) ∧
    fetch eastRows = [("East", 1, 1, 1, 0)] :=
  ⟨C9_region_means eastRows "East" (by decide), by norm_num [fetch, avgQ, eastRows]⟩

/-- Claim C10: on a run against a store whose individual table is empty,
every individual of the dataset is inserted exactly once with all four
counters zero, keyed by its tree-sequence internal id, and the id mapping
used for the updates is the identity. -/
theorem C10_first_run_insertion (regions : RegionMap) (ts : TreeSeq)
    (st : ResolveState) (sql : List (Nat × Nat)) (rows : List IndividualRow)
    (hres : resolveAll regions ts = Except.ok st)
    (hlen : st.individuals.length = ts.individuals.length)
    (hrec : reconcile st.individuals [] = Except.ok (sql, rows)) :
    rows.length = ts.individuals.length ∧
    (∀ idx, idx < ts.individuals.length →
      ∃ nm reg, rows.filter (fun r => r.id = idx) = [⟨idx, nm, reg, 0, 0, 0, 0⟩]) ∧
    (∀ r ∈ rows, dictGet? sql r.id = some r.id) := by
  rw [reconcile_empty] at hrec
  injection hrec with hrec
  injection hrec with hsql hrows
  obtain ⟨es, hes, hids⟩ := resolveFold_append regions ts ts.individuals.enum
    ⟨none, [], []⟩ st hres (by simpa [List.enum_length] using hlen)
  rw [List.nil_append] at hes
  have hrange : es.map (fun q => q.2.1) = List.range ts.individuals.length := by
    rw [hids, show ts.individuals.enum = ts.individuals.enumFrom 0 from rfl,
        List.enumFrom_map_fst, ← List.range_eq_range']
  have hrowids : rows.map (fun r => r.id) = List.range ts.individuals.length := by
    rw [← hrows, hes, List.map_map]
    exact hrange
  refine ⟨?_, ?_, ?_⟩
  · have := congrArg List.length hrowids
    simpa using this
  · intro idx hidx
    obtain ⟨r, hrmem, hrid, hfil⟩ := filter_id_eq_singleton hrowids hidx
    rw [← hrows, hes] at hrmem
    rcases List.mem_map.mp hrmem with ⟨e, _, he⟩
    refine ⟨e.1, e.2.2, ?_⟩
    rw [hfil, ← he]
    have : e.2.1 = idx := by rw [show e.2.1 = (initialRow e).id from rfl, he, hrid]
    rw [show initialRow e = ⟨e.2.1, e.1, e.2.2, 0, 0, 0, 0⟩ from rfl, this]
  · intro r hr
    rw [← hrows, hes] at hr
    rcases List.mem_map.mp hr with ⟨e, hemem, he⟩
    rw [← hsql, hes]
    have hkeys : ((es.map (fun p => (p.2.1, p.2.1))).map Prod.fst).Nodup := by
      rw [List.map_map]
      rw [show ((Prod.fst ∘ fun p => (p.2.1, p.2.1)) : (String × Nat × String) → Nat)
            = (fun q => q.2.1) from rfl, hrange]
      exact List.nodup_range _
    have hrid : r.id = e.2.1 := by rw [← he]; rfl
    rw [hrid]
    exact dictGet?_of_mem_of_nodup hkeys (List.mem_map.mpr ⟨e, hemem, rfl⟩)

/-- Witness for claim C10 on the concrete two-individual dataset. -/
theorem C10_first_run_insertion_witness :
    ([⟨0, "I1", "A", 0, 0, 0, 0⟩, ⟨1, "I2", "B", 0, 0, 0, 0⟩]
        : List IndividualRow).length = tsAB.individuals.length ∧
    (∀ idx, idx < tsAB.individuals.length →
      ∃ nm reg, ([⟨0, "I1", "A", 0, 0, 0, 0⟩, ⟨1, "I2", "B", 0, 0, 0, 0⟩]
          : List IndividualRow).filter (fun r => r.id = idx)
        = [⟨idx, nm, reg, 0, 0, 0, 0⟩]) ∧
    (∀ r ∈ ([⟨0, "I1", "A", 0, 0, 0, 0⟩, ⟨1, "I2", "B", 0, 0, 0, 0⟩]
        : List IndividualRow), dictGet? [(0, 0), (1, 1)] r.id = some r.id) :=
  C10_first_run_insertion regions3 tsAB stAB [(0, 0), (1, 1)]
    [⟨0, "I1", "A", 0, 0, 0, 0⟩, ⟨1, "I2", "B", 0, 0, 0, 0⟩]
    (by decide) (by decide) (by decide)

/-- Claim C4: for every variant site, the allele at index 0 and every
empty-string allele are skipped: such an allele event leaves the store
untouched, and the loop over a variant's alleles is equivalent to the loop
over only its non-ancestral, non-empty alleles. -/
theorem C4_skip_ancestral_and_missing (ts : TreeSeq) (ir : List (Nat × String))
    (numR : Nat) (sql : List (Nat × Nat)) (v : Variant) (s : Store) (a : String)
    (k : Nat) :
    alleleStep ts ir numR sql v s (0, a) = Except.ok s ∧
    alleleStep ts ir numR sql v s (k, "") = Except.ok s ∧
    processVariant ts ir numR sql s v =
      (v.alleles.enum.filter (fun ka => ¬(ka.1 = 0 ∨ ka.2 = ""))).foldlM
        (alleleStep ts ir numR sql v) s := by
  refine ⟨by simp [alleleStep], by simp [alleleStep], ?_⟩
  unfold processVariant
  refine foldlM_filter_pure _ _ ?_ _ s
  intro s ka hka
  have : ka.1 = 0 ∨ ka.2 = "" := by
    have := of_decide_eq_false hka
    tauto
  simp [alleleStep, this]

end RegionalVariants
